import Mathlib

/-!
Shallow embedding of the aggregation core in `src/aggregator.c` of
carbon-c-relay, together with proofs about the claims on its
specification.

Modelling conventions:
* C `double` values are modelled as `Rat` (exact arithmetic).
* C `time_t` / `long long int` values are modelled as `Int`.
* C `unsigned int` expressions that can wrap are computed with an
  explicit `% 2 ^ 32`; the store of a 64-bit quotient into the C `int`
  variable `slot` is modelled by `wrap32` (two's-complement truncation).
* The struct layouts live in `aggregator.h`, which is not part of the
  sources; the field types are modelled from the spec (§3 DATA MODEL):
  timestamps are integers, counters and lengths are plain naturals,
  sample values are float64 (here `Rat`).
* An operation whose C execution would be undefined (the out-of-bounds
  bucket access reachable in `aggregator_putmetric`) returns `none`.
-/

set_option maxRecDepth 10000

/-- Modelled from the spec: `struct _bucket` is declared in `aggregator.h`
(not under `src/`); per spec §3 a Bucket is
`{ windowStart: timestamp, count: uint, sum: float64, min: float64, max: float64 }`.
`start` is the window start, `cnt` the admitted-sample count. -/
structure Bucket where
  start : Int
  cnt : Nat
  sum : Rat
  max : Rat
  min : Rat
  deriving DecidableEq, Repr

instance : Inhabited Bucket := ⟨⟨0, 0, 0, 0, 0⟩⟩

/-- Modelled from the spec: `enum _aggr_compute_type` from `aggregator.h`
(not under `src/`); the five statistic kinds of spec §3 StatisticSpec. -/
inductive AggrComputeType where
  | SUM
  | CNT
  | MAX
  | MIN
  | AVG
  deriving DecidableEq, Repr

/-- Modelled from the spec: `struct _aggr_computes` from `aggregator.h`
(not under `src/`); a StatisticSpec `{kind, outputName}` of spec §3. -/
structure AggrCompute where
  type : AggrComputeType
  metric : String
  deriving DecidableEq, Repr

/-- Modelled from the spec: the `aggregator` struct from `aggregator.h`
(not under `src/`); fields per spec §3: interval and expiry durations,
the three counters, the bucket ring with its fixed length, and the
ordered statistic list. -/
structure Aggregator where
  interval : Nat
  expire : Nat
  received : Nat
  sent : Nat
  dropped : Nat
  buckets : List Bucket
  bucketcnt : Nat
  computes : List AggrCompute
  deriving DecidableEq, Repr

/-- One emitted output line `<metric> <value> <epoch>` (spec §6). -/
structure Emission where
  metric : String
  value : Rat
  ts : Int
  deriving DecidableEq, Repr

/-- `l[k]` as the C pointer-array read `s->buckets[k]` (total, with a
default bucket out of range; all in-range uses are guarded). -/
def nthB : List Bucket → Nat → Bucket
  | [], _ => default
  | b :: _, 0 => b
  | _ :: bs, k + 1 => nthB bs k

/-- Last element of the bucket array, as read by
`s->buckets[s->bucketcnt - 1]` (equivalently `buckets[bucketcnt-2]`
after the `memmove` in `aggregator_expire`). -/
def lastB : List Bucket → Bucket
  | [] => default
  | [b] => b
  | _ :: b :: bs => lastB (b :: bs)

/-- Two's-complement truncation of a 64-bit value into a C `int`
(the store `slot = epoch / s->interval;` at `aggregator.c:114`). -/
def wrap32 (x : Int) : Int := (x + 2 ^ 31) % 2 ^ 32 - 2 ^ 31

/-- The bucket update of `aggregator_putmetric`, `aggregator.c:125-137`:
first sample in an empty bucket sets all fields, later samples
increment `cnt`, accumulate `sum` and widen `max`/`min`. -/
def updateBucket (b : Bucket) (val : Rat) : Bucket :=
  if b.cnt = 0 then
    { b with cnt := 1, sum := val, max := val, min := val }
  else
    { b with cnt := b.cnt + 1, sum := b.sum + val,
             max := if b.max < val then val else b.max,
             min := if b.min > val then val else b.min }

/-- `aggregator_putmetric` from the window classification on
(`aggregator.c:107-141`), applied to the already-parsed sample
`(val, epoch)`.  `epoch -= s->buckets[0]->start` and the `epoch < 0`
check drop stale samples; the 64-bit quotient is truncated into the
`int` variable `slot` (`wrap32`); `slot >= s->bucketcnt` drops
too-far-future samples; otherwise `s->buckets[slot]` is updated.  A
reachable negative `slot` makes the C access `s->buckets[slot]` out of
bounds (undefined behaviour), modelled as `none`. -/
def putSample (s : Aggregator) (val : Rat) (epoch : Int) : Option Aggregator :=
  let off := epoch - (nthB s.buckets 0).start
  if off < 0 then
    some { s with dropped := s.dropped + 1 }
  else
    let slot : Int := wrap32 ((off.toNat / s.interval : Nat) : Int)
    if (s.bucketcnt : Int) ≤ slot then
      some { s with dropped := s.dropped + 1 }
    else if 0 ≤ slot ∧ slot.toNat < s.buckets.length then
      some { s with received := s.received + 1,
                    buckets := s.buckets.set slot.toNat
                      (updateBucket (nthB s.buckets slot.toNat) val) }
    else none

/-- `strchr(metric + start, c)` returning an index into the whole
string: first index `≥ start` holding `c`. -/
def strchrFrom (m : List Char) (start : Nat) (c : Char) : Option Nat :=
  ((m.drop start).findIdx? (fun x => x = c)).map (· + start)

/-- Whitespace as recognised by `atof`/`atoll` (C `isspace`). -/
def isSpaceC (c : Char) : Bool :=
  c = ' ' || c = '\t' || c = '\n' || c = '\x0b' || c = '\x0c' || c = '\r'

def skipWS : List Char → List Char
  | [] => []
  | c :: cs => if isSpaceC c then skipWS cs else c :: cs

def digitsVal (cs : List Char) : Nat :=
  cs.foldl (fun a c => a * 10 + (c.toNat - 48)) 0

/-- C `atoll`: skip whitespace, optional sign, leading decimal digits. -/
def atoll (cs : List Char) : Int :=
  match skipWS cs with
  | '-' :: rest => -((digitsVal (rest.takeWhile Char.isDigit) : Nat) : Int)
  | '+' :: rest => ((digitsVal (rest.takeWhile Char.isDigit) : Nat) : Int)
  | rest => ((digitsVal (rest.takeWhile Char.isDigit) : Nat) : Int)

/-- C `atof` on plain decimal literals (integer part and optional
fractional part; no exponent forms, which never occur in this
development): skip whitespace, optional sign, digits, optional
`.` and fraction digits. -/
def atof (cs : List Char) : Rat :=
  let signed : List Char → Rat := fun rest =>
    let ip := rest.takeWhile Char.isDigit
    let after := rest.dropWhile Char.isDigit
    match after with
    | '.' :: r =>
      let fp := r.takeWhile Char.isDigit
      (digitsVal ip : Rat) + (digitsVal fp : Rat) / ((10 : Rat) ^ fp.length)
    | _ => (digitsVal ip : Rat)
  match skipWS cs with
  | '-' :: rest => -(signed rest)
  | '+' :: rest => signed rest
  | rest => signed rest

/-- The token scan of `aggregator_putmetric`, `aggregator.c:97-105`:
`v = strchr(metric, ' ')`, then `t = strchr(v, ' ')` — note the second
search starts AT `v` (which holds a space), exactly as the C does —
then `val = atof(v + 1)` and `epoch = atoll(t + 1)`. -/
def parseMetric (m : List Char) : Option (Rat × Int) :=
  match strchrFrom m 0 ' ' with
  | none => none
  | some v =>
    match strchrFrom m v ' ' with
    | none => none
    | some t => some (atof (m.drop (v + 1)), atoll (m.drop (t + 1)))

/-- `aggregator_putmetric` (`aggregator.c:86-141`) on a raw text line:
a line failing the token scan is logged and the function returns with
no state change; otherwise the parsed sample is classified. -/
def aggregator_putmetric (s : Aggregator) (metric : List Char) : Option Aggregator :=
  match parseMetric metric with
  | none => some s
  | some (val, epoch) => putSample s val epoch

/-- `aggregator_new` (`aggregator.c:39-78`).  `now` is the value
returned by `time(&now)`; `init` stands for the indeterminate contents
the `malloc`ed `sum`/`max`/`min` fields hold before a first sample;
`cs` is the compute list attached by the configuration layer (outside
`src/`).  Unsigned 32-bit arithmetic of the C is kept explicit:
`expire - 1` wraps at zero, `bucketcnt = expire / interval + 1 + 2`
and the products `i * interval` are reduced `% 2 ^ 32`. -/
def aggregator_new (interval expire : Nat) (now : Int) (init : Rat)
    (cs : List AggrCompute) : Aggregator :=
  let em1 : Nat := (expire + (2 ^ 32 - 1)) % 2 ^ 32
  let back : Nat := em1 / interval * interval
  let start0 : Int := now - (back : Int)
  let bucketcnt : Nat := (expire / interval + 1 + 2) % 2 ^ 32
  { interval := interval
    expire := expire
    received := 0
    sent := 0
    dropped := 0
    bucketcnt := bucketcnt
    buckets := (List.range bucketcnt).map (fun i =>
      { start := start0 + ((i * interval % 2 ^ 32 : Nat) : Int)
        cnt := 0, sum := init, max := init, min := init })
    computes := cs }

/-- The per-statistic output value computed at emission time
(`aggregator.c:166-193`): SUM/CNT/MAX/MIN read the bucket fields, AVG
is `b->sum / (double)b->cnt`. -/
def computeValue (t : AggrComputeType) (b : Bucket) : Rat :=
  match t with
  | .SUM => b.sum
  | .CNT => (b.cnt : Rat)
  | .MAX => b.max
  | .MIN => b.min
  | .AVG => b.sum / (b.cnt : Rat)

/-- The lines emitted for one closing bucket, in compute-list order,
all stamped with the window's closing boundary `b->start + interval`. -/
def emitBucket (cs : List AggrCompute) (b : Bucket) (interval : Nat) : List Emission :=
  cs.map (fun c =>
    { metric := c.metric, value := computeValue c.type b
      ts := b.start + (interval : Int) })

/-- The ring rotation of `aggregator_expire` (`aggregator.c:195-203`):
`sent++`, the pointer array is shifted down one slot, the recycled
bucket gets `cnt = 0` and `start` one interval past the previous last
bucket, and is stored at the tail.  Only `cnt` and `start` of the
recycled bucket are written. -/
def rotateOnce (s : Aggregator) : Aggregator :=
  match s.buckets with
  | [] => { s with sent := s.sent + 1 }
  | b :: rest =>
    { s with sent := s.sent + 1
             buckets := rest ++
               [{ b with cnt := 0
                         start := (lastB (b :: rest)).start + (s.interval : Int) }] }

/-- The inner `while` of `aggregator_expire` (`aggregator.c:163-204`)
for one aggregator at one tick: while
`buckets[0]->start + interval < now - expire`, emit the statistics of
`buckets[0]` and rotate.  `fuel` bounds the number of iterations; with
enough fuel the loop runs to completion exactly as the C loop does. -/
def aggregator_expire : Nat → Int → Aggregator → Aggregator × List Emission
  | 0, _, s => (s, [])
  | fuel + 1, now, s =>
    if (nthB s.buckets 0).start + (s.interval : Int) < now - (s.expire : Int) then
      let ems := emitBucket s.computes (nthB s.buckets 0) s.interval
      let r := aggregator_expire fuel now (rotateOnce s)
      (r.1, ems ++ r.2)
    else (s, [])

/-- Feeding a list of parsed samples through `aggregator_putmetric`'s
classification, left to right. -/
def runPuts : Aggregator → List (Rat × Int) → Option Aggregator
  | s, [] => some s
  | s, p :: ps => (putSample s p.1 p.2).bind (fun s' => runPuts s' ps)

/-- The ring invariant of spec §3: the bucket array realises the ring
(`bucketcnt` is its length) and consecutive buckets' `start` values
differ by exactly `interval`. -/
def ringInv (s : Aggregator) : Prop :=
  s.buckets.length = s.bucketcnt ∧
  List.Chain' (fun a b => b = a + (s.interval : Int)) (s.buckets.map Bucket.start)

/-- Executable check for the consecutive-difference chain. -/
def chainB (I : Int) : List Int → Bool
  | [] => true
  | [_] => true
  | a :: b :: r => decide (b = a + I) && chainB I (b :: r)

theorem chainB_iff (I : Int) :
    ∀ l : List Int, chainB I l = true ↔ List.Chain' (fun a b => b = a + I) l
  | [] => by simp [chainB]
  | [a] => by simp [chainB]
  | a :: b :: r => by
    rw [List.chain'_cons]
    simp only [chainB, Bool.and_eq_true, decide_eq_true_eq]
    exact and_congr Iff.rfl (chainB_iff I (b :: r))

instance (s : Aggregator) : Decidable (ringInv s) :=
  decidable_of_iff
    (s.buckets.length = s.bucketcnt ∧
      chainB (s.interval : Int) (s.buckets.map Bucket.start) = true)
    (and_congr Iff.rfl (chainB_iff _ _))

/-- `ringInv` lifted through the `Option` result of an ingestion. -/
def ringInvO : Option Aggregator → Prop
  | none => True
  | some s => ringInv s

instance : (o : Option Aggregator) → Decidable (ringInvO o)
  | none => isTrue trivial
  | some s => inferInstanceAs (Decidable (ringInv s))

/-- Ceiling division on naturals, as the spec's `ceil(expiry/interval)`. -/
def ceilDiv (a b : Nat) : Nat := (a + b - 1) / b

/-- A concrete aggregator used in counterexamples and witnesses:
`interval = 1`, `expire = 60`, created at `time(&now) = 59`, so the
ring has 63 buckets and `buckets[0]->start = 0`. -/
def cexAgg : Aggregator := aggregator_new 1 60 59 0 []

/-- A concrete aggregator used in sweeper witnesses: `interval = 2`,
`expire = 3`, created at time 10 (buckets start 8, 10, 12, 14), with a
SUM and a CNT statistic attached. -/
def swAgg : Aggregator := aggregator_new 2 3 10 0 [⟨.SUM, "a"⟩, ⟨.CNT, "b"⟩]

/-- A two-bucket aggregator used in the rotation witness: the oldest
bucket carries stale statistics (`sum = 7`, `max = 5`, `min = 2`) with
`cnt` already 0. -/
def rotAgg : Aggregator :=
  { interval := 1, expire := 1, received := 3, sent := 0, dropped := 0,
    buckets := [⟨0, 0, 7, 5, 2⟩, ⟨1, 0, 0, 0, 0⟩], bucketcnt := 2, computes := [] }

/-- Three samples for the batch-statistics witness, all classifying
into slot 1 of `swAgg` (epochs 10 and 11 against start 8, interval 2). -/
def c2L : List (Rat × Int) := [(3, 10), (5, 11), (1, 11)]

/-! ## Claim theorems: concrete evaluations and simple paths -/

/-- C1: the claim says the sample's value comes from the second
whitespace-separated token and the epoch from the third.  On the
well-formed line `foo 2 100\n` the code indeed takes the value `2`
from the second token, but — because `strchr(v, ' ')` starts its
search at the space `v` itself and therefore returns `v` — the epoch
is parsed by `atoll` from the second token as well, yielding epoch
`2`, not `100` from the third token. -/
theorem c1_epoch_from_value_token :
    parseMetric (String.toList "foo 2 100\n") = some ((2 : Rat), (2 : Int)) ∧
    parseMetric (String.toList "foo 2 100\n") ≠ some ((2 : Rat), (100 : Int)) := by
  decide

/-- C3 counterexample: with `interval = 10`, `expiry = 15` the ring
length is `15 / 10 + 1 + 2 = 4`, while `ceil(15/10) + 3 = 5`, so the
claimed formula `ceil(expiry/interval) + 3` is wrong. -/
theorem c3_ring_length_counterexample :
    (aggregator_new 10 15 0 0 []).bucketcnt = 4 ∧
    (aggregator_new 10 15 0 0 []).buckets.length = 4 ∧
    ceilDiv 15 10 + 3 = 5 ∧
    (aggregator_new 10 15 0 0 []).bucketcnt ≠ ceilDiv 15 10 + 3 := by
  decide

/-- C3 amended: for every `interval > 0` and `expiry` (with the
32-bit unsigned expression `expire / interval + 1 + 2` not
overflowing), `aggregator_new` allocates a bucket ring whose fixed
length equals `floor(expiry/interval) + 3`. -/
theorem c3_ring_length_amended (interval expire : Nat) (now : Int) (init : Rat)
    (cs : List AggrCompute) (hI : 0 < interval)
    (hE : expire / interval + 3 < 2 ^ 32) :
    (aggregator_new interval expire now init cs).bucketcnt
      = expire / interval + 3 ∧
    (aggregator_new interval expire now init cs).buckets.length
      = expire / interval + 3 := by
  have h1 : expire / interval + 1 + 2 = expire / interval + 3 := by omega
  constructor
  · show (expire / interval + 1 + 2) % 2 ^ 32 = expire / interval + 3
    rw [h1, Nat.mod_eq_of_lt hE]
  · show ((List.range ((expire / interval + 1 + 2) % 2 ^ 32)).map _).length
      = expire / interval + 3
    rw [List.length_map, List.length_range, h1, Nat.mod_eq_of_lt hE]

/-- Witness for C3 amended at `interval = 10`, `expiry = 15`. -/
theorem c3_ring_length_amended_witness :
    (aggregator_new 10 15 0 0 []).bucketcnt = 15 / 10 + 3 ∧
    (aggregator_new 10 15 0 0 []).buckets.length = 15 / 10 + 3 :=
  c3_ring_length_amended 10 15 0 0 [] (by decide) (by decide)

/-- C4: a sample whose epoch is strictly below `buckets[0]->start`
only increments `dropped`: the result state is exactly the input state
with `dropped + 1`, so every bucket and the `received` counter are
unchanged and the sample reaches no window. -/
theorem c4_stale_sample_dropped (s : Aggregator) (v : Rat) (e : Int)
    (h : e < (nthB s.buckets 0).start) :
    putSample s v e = some { s with dropped := s.dropped + 1 } := by
  have hoff : e - (nthB s.buckets 0).start < 0 := by omega
  simp [putSample, hoff]

/-- Witness for C4: epoch `-1` against `cexAgg` (whose oldest window
starts at 0). -/
theorem c4_stale_sample_dropped_witness :
    ((-1 : Int) < (nthB cexAgg.buckets 0).start) ∧
    putSample cexAgg 1 (-1) = some { cexAgg with dropped := cexAgg.dropped + 1 } :=
  ⟨by decide, c4_stale_sample_dropped cexAgg 1 (-1) (by decide)⟩

/-- C5: the claim says a sample whose slot
`floor((epoch - buckets[0].windowStart)/interval)` is `≥` the ring
length is dropped with no bucket mutation.  Against `cexAgg`
(`interval = 1`, ring length 63, `buckets[0]->start = 0`), the epoch
`2^32` has slot `2^32 ≥ 63`, yet the 64-bit quotient stored into the C
`int` variable truncates to `0`, so the sample is admitted: `received`
becomes 1, `buckets[0]` is mutated and `dropped` stays 0. -/
theorem c5_future_sample_admitted :
    cexAgg.bucketcnt = 63 ∧
    (2 ^ 32 - (nthB cexAgg.buckets 0).start).toNat / cexAgg.interval ≥ cexAgg.bucketcnt ∧
    (putSample cexAgg 1 (2 ^ 32)).map
      (fun t => (t.received, t.dropped, (nthB t.buckets 0).cnt)) = some (1, 0, 1) := by
  decide

/-- C6: the claim says a line missing the epoch field is rejected with
no state change.  The line `foo 5\n` lacks the epoch field, but the
second `strchr(v, ' ')` finds the space at `v` itself, so the check
for a missing third field never fires: the value token is reused as
the epoch (5), the sample is admitted, `received` becomes 1 and
`buckets[5]` is mutated. -/
theorem c6_missing_epoch_admitted :
    parseMetric (String.toList "foo 5\n") = some ((5 : Rat), (5 : Int)) ∧
    (aggregator_putmetric cexAgg (String.toList "foo 5\n")).map
      (fun t => (t.received, t.dropped, (nthB t.buckets 5).cnt)) = some (1, 0, 1) := by
  decide

/-- C8 counterexample: with `interval = expiry = 2^31` the unsigned
32-bit products `i * interval` in the start initialisation wrap, the
constructed starts are `[0, 2^31, 0, 2^31]`, and consecutive buckets
do not differ by `interval`: the invariant is not established by
construction. -/
theorem c8_ring_invariant_counterexample :
    ¬ ringInv (aggregator_new (2 ^ 31) (2 ^ 31) 0 0 []) ∧
    (aggregator_new (2 ^ 31) (2 ^ 31) 0 0 []).buckets.map Bucket.start
      = [0, 2 ^ 31, 0, 2 ^ 31] := by
  decide

/-- C9: the claim says every bucket access in `aggregator_putmetric`
has `0 ≤ slot < bucketcnt`, even for quotients beyond the `int` range.
Against `cexAgg`, the epoch `2^31` gives the 64-bit quotient `2^31`,
which truncates into the `int` variable as `-2^31`; the
`slot >= s->bucketcnt` guard does not reject a negative slot, so the
code dereferences `s->buckets[-2^31]`, out of bounds (modelled as
`none`). -/
theorem c9_slot_truncation_oob :
    putSample cexAgg 1 (2 ^ 31) = none ∧
    wrap32 (((2 ^ 31 - (nthB cexAgg.buckets 0).start).toNat / cexAgg.interval : Nat) : Int)
      = -(2 ^ 31) ∧
    ¬ ((cexAgg.bucketcnt : Int) ≤ -(2 ^ 31)) := by
  decide

/-! ## Helper lemmas about the embedding -/

theorem updateBucket_start (b : Bucket) (v : Rat) :
    (updateBucket b v).start = b.start := by
  unfold updateBucket; split <;> rfl

theorem nthB_set_self : ∀ (l : List Bucket) (k : Nat) (b : Bucket),
    k < l.length → nthB (l.set k b) k = b
  | [], _, _, h => absurd h (by simp)
  | _ :: _, 0, _, _ => rfl
  | _ :: xs, k + 1, b, h => nthB_set_self xs k b (by simpa using h)

theorem set_nthB_self : ∀ (l : List Bucket) (k : Nat),
    k < l.length → l.set k (nthB l k) = l
  | [], _, h => absurd h (by simp)
  | _ :: _, 0, _ => rfl
  | x :: xs, k + 1, h => by
    show x :: xs.set k (nthB xs k) = x :: xs
    rw [set_nthB_self xs k (by simpa using h)]

theorem nthB_set_start : ∀ (l : List Bucket) (k j : Nat) (v : Rat),
    (nthB (l.set k (updateBucket (nthB l k) v)) j).start = (nthB l j).start
  | [], _, _, _ => rfl
  | x :: _, 0, 0, v => updateBucket_start x v
  | _ :: _, 0, _ + 1, _ => rfl
  | _ :: _, _ + 1, 0, _ => rfl
  | _ :: xs, k + 1, j + 1, v => nthB_set_start xs k j v

theorem map_start_set : ∀ (l : List Bucket) (k : Nat) (v : Rat),
    (l.set k (updateBucket (nthB l k) v)).map Bucket.start = l.map Bucket.start
  | [], _, _ => rfl
  | x :: xs, 0, v => by
    show (updateBucket x v).start :: xs.map Bucket.start = x.start :: xs.map Bucket.start
    rw [updateBucket_start]
  | x :: xs, k + 1, v => by
    show x.start :: (xs.set k (updateBucket (nthB xs k) v)).map Bucket.start
      = x.start :: xs.map Bucket.start
    rw [map_start_set xs k v]

theorem lastB_cons (b : Bucket) (l : List Bucket) (h : l ≠ []) :
    lastB (b :: l) = lastB l := by
  cases l with
  | nil => exact absurd rfl h
  | cons y ys => rfl

theorem getLast?_map_start : ∀ (l : List Bucket), l ≠ [] →
    (l.map Bucket.start).getLast? = some (lastB l).start
  | [], h => absurd rfl h
  | [x], _ => rfl
  | x :: y :: ys, _ => by
    show (x.start :: (y :: ys).map Bucket.start).getLast? = some (lastB (y :: ys)).start
    rw [show (y :: ys).map Bucket.start = y.start :: ys.map Bucket.start from rfl,
        List.getLast?_cons_cons,
        ← show (y :: ys).map Bucket.start = y.start :: ys.map Bucket.start from rfl]
    exact getLast?_map_start (y :: ys) (by simp)

/-- The record fields `rotateOnce` never touches. -/
theorem rotate_fields (s : Aggregator) :
    (rotateOnce s).interval = s.interval ∧ (rotateOnce s).expire = s.expire ∧
    (rotateOnce s).bucketcnt = s.bucketcnt ∧ (rotateOnce s).computes = s.computes := by
  unfold rotateOnce
  rcases s.buckets with _ | ⟨b, rest⟩ <;> exact ⟨rfl, rfl, rfl, rfl⟩

/-- Ingestion of a parsed sample preserves the ring invariant. -/
theorem putSample_ringInvO (s : Aggregator) (v : Rat) (e : Int) (h : ringInv s) :
    ringInvO (putSample s v e) := by
  by_cases h1 : e - (nthB s.buckets 0).start < 0
  · simp only [putSample, if_pos h1]
    exact h
  · by_cases h2 : (s.bucketcnt : Int) ≤
        wrap32 (((e - (nthB s.buckets 0).start).toNat / s.interval : Nat) : Int)
    · simp only [putSample, if_neg h1, if_pos h2]
      exact h
    · by_cases h3 : 0 ≤ wrap32 (((e - (nthB s.buckets 0).start).toNat / s.interval : Nat) : Int) ∧
          (wrap32 (((e - (nthB s.buckets 0).start).toNat / s.interval : Nat) : Int)).toNat
            < s.buckets.length
      · simp only [putSample, if_neg h1, if_neg h2, if_pos h3]
        refine ⟨?_, ?_⟩
        · show (s.buckets.set _ _).length = s.bucketcnt
          rw [List.length_set]; exact h.1
        · show List.Chain' _ ((s.buckets.set _ (updateBucket (nthB s.buckets _) v)).map Bucket.start)
          rw [map_start_set]
          exact h.2
      · simp only [putSample, if_neg h1, if_neg h2, if_neg h3]
        trivial

/-- Ingestion of a raw line preserves the ring invariant. -/
theorem putmetric_ringInvO (s : Aggregator) (m : List Char) (h : ringInv s) :
    ringInvO (aggregator_putmetric s m) := by
  unfold aggregator_putmetric
  rcases parseMetric m with _ | ⟨v, e⟩
  · exact h
  · exact putSample_ringInvO s v e h

/-- The sweeper's rotation preserves the ring invariant. -/
theorem rotate_ringInv (s : Aggregator) (h : ringInv s) (h2 : 2 ≤ s.bucketcnt) :
    ringInv (rotateOnce s) := by
  obtain ⟨hlen, hch⟩ := h
  rcases hbk : s.buckets with _ | ⟨b, rest⟩
  · rw [hbk] at hlen; simp at hlen; omega
  · have hrest : rest ≠ [] := by
      rw [hbk] at hlen
      intro hn; rw [hn] at hlen; simp at hlen; omega
    have hIrot := rotate_fields s
    constructor
    · show (rotateOnce s).buckets.length = (rotateOnce s).bucketcnt
      rw [hIrot.2.2.1]
      simp only [rotateOnce, hbk]
      rw [List.length_append, List.length_cons]
      rw [hbk] at hlen; simp at hlen; simp; omega
    · show List.Chain' (fun a c => c = a + ((rotateOnce s).interval : Int))
        ((rotateOnce s).buckets.map Bucket.start)
      rw [hIrot.1]
      simp only [rotateOnce, hbk]
      rw [hbk] at hch
      rw [List.map_append]
      rw [List.chain'_append]
      refine ⟨?_, List.chain'_singleton _, ?_⟩
      · have := hch.tail
        simpa using this
      · intro x hx y hy
        rw [getLast?_map_start rest hrest] at hx
        simp only [Option.mem_def, Option.some.injEq] at hx
        simp only [List.map_cons, List.map_nil, List.head?_cons, Option.mem_def,
          Option.some.injEq] at hy
        subst hx; subst hy
        simp [lastB_cons b rest hrest]

/-- After a rotation the oldest window start has advanced by exactly
one interval. -/
theorem rotate_head_start (s : Aggregator) (h : ringInv s) (h2 : 2 ≤ s.bucketcnt) :
    (nthB (rotateOnce s).buckets 0).start
      = (nthB s.buckets 0).start + (s.interval : Int) := by
  obtain ⟨hlen, hch⟩ := h
  rcases hbk : s.buckets with _ | ⟨b, rest⟩
  · rw [hbk] at hlen; simp at hlen; omega
  · rcases hr : rest with _ | ⟨r1, rest'⟩
    · rw [hbk, hr] at hlen; simp at hlen; omega
    · simp only [rotateOnce, hbk, hr]
      rw [hbk, hr] at hch
      simp only [List.map_cons, List.chain'_cons] at hch
      show r1.start = b.start + (s.interval : Int)
      exact hch.1

/-- Arithmetic progressions are chains with constant difference. -/
theorem chain'_arith (I : Int) : ∀ (n : Nat) (c : Int),
    List.Chain' (fun a b => b = a + I)
      ((List.range n).map (fun (i : Nat) => c + (i : Int) * I))
  | 0, c => by simp
  | n + 1, c => by
    rw [List.range_succ_eq_map]
    rw [List.map_cons, List.map_map]
    have hmap : (List.range n).map
          ((fun (i : Nat) => c + (i : Int) * I) ∘ Nat.succ)
        = (List.range n).map (fun (i : Nat) => (c + I) + (i : Int) * I) := by
      apply List.map_congr_left
      intro i _
      simp only [Function.comp_apply]
      push_cast
      ring
    rw [hmap]
    rw [List.chain'_cons']
    refine ⟨?_, chain'_arith I n (c + I)⟩
    intro y hy
    cases n with
    | zero => simp at hy
    | succ m =>
      rw [List.range_succ_eq_map] at hy
      simp only [List.map_cons, List.head?_cons, Option.mem_def, Option.some.injEq] at hy
      subst hy
      push_cast
      ring

/-- Construction establishes the ring invariant, provided none of the
unsigned 32-bit products `i * interval` in the start initialisation
overflows. -/
theorem aggregator_new_ringInv (interval expire : Nat) (now : Int) (init : Rat)
    (cs : List AggrCompute) (hov : ∀ i, i < expire / interval + 3 → i * interval < 2 ^ 32) :
    ringInv (aggregator_new interval expire now init cs) := by
  have hcnt : (aggregator_new interval expire now init cs).bucketcnt
      = (expire / interval + 1 + 2) % 2 ^ 32 := rfl
  have hle : (expire / interval + 1 + 2) % 2 ^ 32 ≤ expire / interval + 3 :=
    le_trans (Nat.mod_le _ _) (by omega)
  constructor
  · show ((List.range ((expire / interval + 1 + 2) % 2 ^ 32)).map _).length = _
    rw [List.length_map, List.length_range]
    rfl
  · show List.Chain' _ (((List.range ((expire / interval + 1 + 2) % 2 ^ 32)).map _).map
      Bucket.start)
    rw [List.map_map]
    have hmap : ((List.range ((expire / interval + 1 + 2) % 2 ^ 32)).map
          (Bucket.start ∘ (fun i =>
            ({ start := (now - ((expire + (2 ^ 32 - 1)) % 2 ^ 32 / interval * interval : Nat))
                  + ((i * interval % 2 ^ 32 : Nat) : Int)
               cnt := 0, sum := init, max := init, min := init } : Bucket))))
        = (List.range ((expire / interval + 1 + 2) % 2 ^ 32)).map
            (fun (i : Nat) =>
              (now - ((expire + (2 ^ 32 - 1)) % 2 ^ 32 / interval * interval : Nat))
              + (i : Int) * (interval : Int)) := by
      apply List.map_congr_left
      intro i hi
      rw [List.mem_range] at hi
      have hiov : i * interval < 2 ^ 32 := hov i (lt_of_lt_of_le hi hle)
      simp only [Function.comp_apply]
      rw [Nat.mod_eq_of_lt hiov]
      push_cast
      ring
    rw [hmap]
    exact chain'_arith (interval : Int) _ _

/-- A chained ring with positive interval is strictly sorted by
window start (`buckets[0]` is the oldest window). -/
theorem ringInv_sorted (s : Aggregator) (h : ringInv s) (hI : 0 < s.interval) :
    List.Pairwise (· < ·) (s.buckets.map Bucket.start) := by
  have hch : List.Chain' (· < ·) (s.buckets.map Bucket.start) := by
    refine List.Chain'.imp ?_ h.2
    intro a b hab
    have : (1 : Int) ≤ (s.interval : Int) := by exact_mod_cast hI
    omega
  exact List.chain'_iff_pairwise.mp hch

/-- C8 amended: the invariant that consecutive buckets' `start` values
differ by exactly `interval` (hence the ring is strictly sorted
ascending and `buckets[0]` is the oldest window) is established by
construction provided the unsigned 32-bit products `i * interval` of
the start initialisation do not overflow, and is preserved
unconditionally by every ingestion (parsed or raw) and by every
sweeper rotation. -/
theorem c8_ring_invariant_amended :
    (∀ (interval expire : Nat) (now : Int) (init : Rat) (cs : List AggrCompute),
        (∀ i, i < expire / interval + 3 → i * interval < 2 ^ 32) →
        ringInv (aggregator_new interval expire now init cs)) ∧
    (∀ (s : Aggregator) (v : Rat) (e : Int), ringInv s → ringInvO (putSample s v e)) ∧
    (∀ (s : Aggregator) (m : List Char), ringInv s →
        ringInvO (aggregator_putmetric s m)) ∧
    (∀ s : Aggregator, ringInv s → 2 ≤ s.bucketcnt → ringInv (rotateOnce s)) ∧
    (∀ s : Aggregator, ringInv s → 0 < s.interval →
        List.Pairwise (· < ·) (s.buckets.map Bucket.start)) :=
  ⟨aggregator_new_ringInv, putSample_ringInvO, putmetric_ringInvO,
   rotate_ringInv, ringInv_sorted⟩

/-- Witness for C8 amended, at the concrete aggregator `cexAgg`
(`interval = 1`, `expire = 60`): construction, ingestion of a parsed
and of a raw sample, rotation, and sortedness. -/
theorem c8_ring_invariant_amended_witness :
    ringInv (aggregator_new 1 60 59 0 []) ∧
    ringInvO (putSample cexAgg 1 5) ∧
    ringInvO (aggregator_putmetric cexAgg (String.toList "foo 2 7\n")) ∧
    ringInv (rotateOnce cexAgg) ∧
    List.Pairwise (· < ·) (cexAgg.buckets.map Bucket.start) :=
  ⟨c8_ring_invariant_amended.1 1 60 59 0 [] (by intro i hi; omega),
   c8_ring_invariant_amended.2.1 cexAgg 1 5 (by decide),
   c8_ring_invariant_amended.2.2.1 cexAgg (String.toList "foo 2 7\n") (by decide),
   c8_ring_invariant_amended.2.2.2.1 cexAgg (by decide) (by decide),
   c8_ring_invariant_amended.2.2.2.2 cexAgg (by decide) (by decide)⟩

/-- Every line emitted for a bucket carries the window's closing
boundary as its timestamp. -/
theorem emit_ts (cs : List AggrCompute) (b : Bucket) (I : Nat) :
    ∀ e ∈ emitBucket cs b I, e.ts = b.start + (I : Int) := by
  intro e he
  unfold emitBucket at he
  rw [List.mem_map] at he
  obtain ⟨c, _, hc⟩ := he
  rw [← hc]

/-- A constant list is sorted. -/
theorem pairwise_const_le (c : Int) : ∀ (l : List AggrCompute),
    List.Pairwise (· ≤ ·) (l.map (fun _ => c))
  | [] => List.Pairwise.nil
  | _ :: xs => by
    rw [List.map_cons]
    refine List.Pairwise.cons ?_ (pairwise_const_le c xs)
    intro y hy
    rw [List.mem_map] at hy
    obtain ⟨_, _, hc⟩ := hy
    omega

/-- The sweeper loop keeps the fields it does not rotate. -/
theorem expire_fields : ∀ (fuel : Nat) (now : Int) (s : Aggregator),
    (aggregator_expire fuel now s).1.interval = s.interval ∧
    (aggregator_expire fuel now s).1.expire = s.expire ∧
    (aggregator_expire fuel now s).1.bucketcnt = s.bucketcnt
  | 0, _, _ => ⟨rfl, rfl, rfl⟩
  | fuel + 1, now, s => by
    by_cases hg : (nthB s.buckets 0).start + (s.interval : Int) < now - (s.expire : Int)
    · simp only [aggregator_expire, if_pos hg]
      have hrot := rotate_fields s
      have hind := expire_fields fuel now (rotateOnce s)
      exact ⟨hind.1.trans hrot.1, hind.2.1.trans hrot.2.1, hind.2.2.trans hrot.2.2.1⟩
    · simp [aggregator_expire, hg]

/-- Timestamp bounds and order of everything the sweeper loop emits:
every emitted line's timestamp is below `now - expire` (the closing
condition at the moment of its check), is at least one interval past
the oldest window start, and the emitted timestamps are
non-decreasing (windows close oldest first). -/
theorem expire_ts_props : ∀ (fuel : Nat) (now : Int) (s : Aggregator),
    ringInv s → 2 ≤ s.bucketcnt →
    (∀ e ∈ (aggregator_expire fuel now s).2, e.ts < now - (s.expire : Int)) ∧
    (∀ e ∈ (aggregator_expire fuel now s).2,
        (nthB s.buckets 0).start + (s.interval : Int) ≤ e.ts) ∧
    List.Pairwise (· ≤ ·) ((aggregator_expire fuel now s).2.map Emission.ts)
  | 0, now, s, _, _ => by
    refine ⟨?_, ?_, ?_⟩ <;> simp [aggregator_expire]
  | fuel + 1, now, s, hinv, hcnt => by
    by_cases hg : (nthB s.buckets 0).start + (s.interval : Int) < now - (s.expire : Int)
    · simp only [aggregator_expire, if_pos hg]
      have hrinv := rotate_ringInv s hinv hcnt
      have hrcnt : 2 ≤ (rotateOnce s).bucketcnt := by
        rw [(rotate_fields s).2.2.1]; exact hcnt
      have hind := expire_ts_props fuel now (rotateOnce s) hrinv hrcnt
      have hrE : (rotateOnce s).expire = s.expire := (rotate_fields s).2.1
      have hrI : (rotateOnce s).interval = s.interval := (rotate_fields s).1
      have hrhead := rotate_head_start s hinv hcnt
      have hI0 : (0 : Int) ≤ (s.interval : Int) := Int.natCast_nonneg _
      have hemit := emit_ts s.computes (nthB s.buckets 0) s.interval
      refine ⟨?_, ?_, ?_⟩
      · intro e he
        rw [List.mem_append] at he
        rcases he with he | he
        · rw [hemit e he]; exact hg
        · have := hind.1 e he; rw [hrE] at this; exact this
      · intro e he
        rw [List.mem_append] at he
        rcases he with he | he
        · rw [hemit e he]
        · have := hind.2.1 e he
          rw [hrI, hrhead] at this
          omega
      · rw [List.map_append]
        rw [List.pairwise_append]
        refine ⟨?_, hind.2.2, ?_⟩
        · have : (emitBucket s.computes (nthB s.buckets 0) s.interval).map Emission.ts
              = s.computes.map (fun _ => (nthB s.buckets 0).start + (s.interval : Int)) := by
            unfold emitBucket
            rw [List.map_map]
            rfl
          rw [this]
          exact pairwise_const_le _ _
        · intro x hx y hy
          rw [List.mem_map] at hx hy
          obtain ⟨ex, hex, hexts⟩ := hx
          obtain ⟨ey, hey, heyts⟩ := hy
          have hxv : x = (nthB s.buckets 0).start + (s.interval : Int) := by
            rw [← hexts, hemit ex hex]
          have hyv := hind.2.1 ey hey
          rw [hrI, hrhead] at hyv
          rw [hxv, ← heyts]
          omega
    · simp only [aggregator_expire, if_neg hg]
      refine ⟨?_, ?_, ?_⟩ <;> simp

/-- With enough fuel the sweeper loop runs until the closing condition
fails: the loop of `aggregator_expire` terminates exactly when
`buckets[0]->start + interval < now - expire` no longer holds. -/
theorem expire_exhaust : ∀ (fuel : Nat) (now : Int) (s : Aggregator),
    ringInv s → 2 ≤ s.bucketcnt → 1 ≤ s.interval →
    (now - (s.expire : Int) - (nthB s.buckets 0).start).toNat ≤ fuel →
    ¬ ((nthB (aggregator_expire fuel now s).1.buckets 0).start + (s.interval : Int)
        < now - (s.expire : Int))
  | 0, now, s, _, _, hI, hfuel => by
    have hI' : (1 : Int) ≤ (s.interval : Int) := by exact_mod_cast hI
    show ¬ ((nthB s.buckets 0).start + (s.interval : Int) < now - (s.expire : Int))
    omega
  | fuel + 1, now, s, hinv, hcnt, hI, hfuel => by
    have hI' : (1 : Int) ≤ (s.interval : Int) := by exact_mod_cast hI
    by_cases hg : (nthB s.buckets 0).start + (s.interval : Int) < now - (s.expire : Int)
    · simp only [aggregator_expire, if_pos hg]
      have hrinv := rotate_ringInv s hinv hcnt
      have hrcnt : 2 ≤ (rotateOnce s).bucketcnt := by
        rw [(rotate_fields s).2.2.1]; exact hcnt
      have hrI : (rotateOnce s).interval = s.interval := (rotate_fields s).1
      have hrE : (rotateOnce s).expire = s.expire := (rotate_fields s).2.1
      have hrhead := rotate_head_start s hinv hcnt
      have hrfuel : (now - ((rotateOnce s).expire : Int)
          - (nthB (rotateOnce s).buckets 0).start).toNat ≤ fuel := by
        rw [hrE, hrhead]
        omega
      have := expire_exhaust fuel now (rotateOnce s) hrinv hrcnt
        (by rw [hrI]; exact hI) hrfuel
      rw [hrI, hrE] at this
      exact this
    · simp only [aggregator_expire, if_neg hg]
      exact hg

/-- C7: statistics are only emitted for a bucket when
`buckets[0]->start + interval < now - expire` held at the moment of
the check (the emitted timestamp is the closing boundary, so every
emitted line satisfies `ts < now - expire`); a window that has not
fully expired is never emitted; and within one aggregator the windows
are closed oldest first (non-decreasing timestamps) until — given
enough fuel, as the C `while` loop always has — no window satisfies
the condition any more, before the sweeper moves on. -/
theorem c7_sweeper_emission_guard (fuel : Nat) (now : Int) (s : Aggregator)
    (h1 : ringInv s) (h2 : 2 ≤ s.bucketcnt) (h3 : 1 ≤ s.interval)
    (h4 : (now - (s.expire : Int) - (nthB s.buckets 0).start).toNat ≤ fuel) :
    (∀ e ∈ (aggregator_expire fuel now s).2, e.ts < now - (s.expire : Int)) ∧
    List.Sorted (· ≤ ·) ((aggregator_expire fuel now s).2.map Emission.ts) ∧
    ¬ ((nthB (aggregator_expire fuel now s).1.buckets 0).start + (s.interval : Int)
        < now - (s.expire : Int)) :=
  ⟨(expire_ts_props fuel now s h1 h2).1,
   (expire_ts_props fuel now s h1 h2).2.2,
   expire_exhaust fuel now s h1 h2 h3 h4⟩

/-- Witness for C7: the sweeper at `now = 30` on `swAgg`
(`interval = 2`, `expire = 3`, oldest start 8) closes nine windows. -/
theorem c7_sweeper_emission_guard_witness :
    (∀ e ∈ (aggregator_expire 19 30 swAgg).2, e.ts < 30 - (swAgg.expire : Int)) ∧
    List.Sorted (· ≤ ·) ((aggregator_expire 19 30 swAgg).2.map Emission.ts) ∧
    ¬ ((nthB (aggregator_expire 19 30 swAgg).1.buckets 0).start + (swAgg.interval : Int)
        < 30 - (swAgg.expire : Int)) :=
  c7_sweeper_emission_guard 19 30 swAgg (by decide) (by decide) (by decide) (by decide)

/-- C10: rotation writes only `cnt` (reset to 0) and `start` of the
recycled bucket — its `sum`, `min`, `max` and all other buckets are
untouched — and a bucket closing with `cnt = 0` emits SUM/MIN/MAX
straight from those stale fields while the AVG formula divides that
stale sum by the zero count. -/
theorem c10_rotation_frame (s : Aggregator) (b : Bucket) (rest : List Bucket)
    (hb : s.buckets = b :: rest) (hne : rest ≠ []) :
    (rotateOnce s).buckets
      = rest ++ [{ b with cnt := 0, start := (lastB rest).start + (s.interval : Int) }] ∧
    (rotateOnce s).sent = s.sent + 1 ∧
    (rotateOnce s).received = s.received ∧
    (rotateOnce s).dropped = s.dropped ∧
    (b.cnt = 0 →
      computeValue .SUM b = b.sum ∧
      computeValue .MAX b = b.max ∧
      computeValue .MIN b = b.min ∧
      computeValue .AVG b = b.sum / (b.cnt : Rat) ∧
      (b.cnt : Rat) = 0) := by
  refine ⟨?_, ?_, ?_, ?_, ?_⟩
  · simp only [rotateOnce, hb]
    rw [lastB_cons b rest hne]
  · simp only [rotateOnce, hb]
  · simp only [rotateOnce, hb]
  · simp only [rotateOnce, hb]
  · intro h0
    refine ⟨rfl, rfl, rfl, rfl, ?_⟩
    rw [h0]
    simp

/-- Witness for C10: a two-bucket aggregator whose oldest bucket holds
a stale `sum = 7`, `max = 5`, `min = 2` from earlier samples but
`cnt = 0`. -/
theorem c10_rotation_frame_witness :
    (rotateOnce rotAgg).buckets
      = [⟨1, 0, 0, 0, 0⟩] ++
        [⟨(lastB [⟨1, 0, 0, 0, 0⟩]).start + (rotAgg.interval : Int), 0, 7, 5, 2⟩] ∧
    (rotateOnce rotAgg).sent = rotAgg.sent + 1 ∧
    (rotateOnce rotAgg).received = rotAgg.received ∧
    (rotateOnce rotAgg).dropped = rotAgg.dropped ∧
    ((⟨0, 0, 7, 5, 2⟩ : Bucket).cnt = 0 →
      computeValue .SUM ⟨0, 0, 7, 5, 2⟩ = (⟨0, 0, 7, 5, 2⟩ : Bucket).sum ∧
      computeValue .MAX ⟨0, 0, 7, 5, 2⟩ = (⟨0, 0, 7, 5, 2⟩ : Bucket).max ∧
      computeValue .MIN ⟨0, 0, 7, 5, 2⟩ = (⟨0, 0, 7, 5, 2⟩ : Bucket).min ∧
      computeValue .AVG ⟨0, 0, 7, 5, 2⟩
        = (⟨0, 0, 7, 5, 2⟩ : Bucket).sum / ((⟨0, 0, 7, 5, 2⟩ : Bucket).cnt : Rat) ∧
      ((⟨0, 0, 7, 5, 2⟩ : Bucket).cnt : Rat) = 0) :=
  c10_rotation_frame rotAgg ⟨0, 0, 7, 5, 2⟩ [⟨1, 0, 0, 0, 0⟩] rfl (by decide)

/-- The C max update `if (bucket->max < val) bucket->max = val;` is the
lattice max. -/
theorem maxC_eq (a v : Rat) : (if a < v then v else a) = max a v := by
  rcases lt_or_ge a v with h | h
  · rw [if_pos h, max_eq_right (le_of_lt h)]
  · rw [if_neg (not_lt.mpr h), max_eq_left h]

/-- The C min update `if (bucket->min > val) bucket->min = val;` is the
lattice min. -/
theorem minC_eq (a v : Rat) : (if a > v then v else a) = min a v := by
  rcases lt_or_ge v a with h | h
  · rw [if_pos h, min_eq_right (le_of_lt h)]
  · rw [if_neg (not_lt.mpr h), min_eq_left h]

/-- Folding updates over a non-empty bucket accumulates count, sum,
max, min and leaves the window start alone. -/
theorem fold_upd_pos : ∀ (vs : List Rat) (b : Bucket), 0 < b.cnt →
    (List.foldl updateBucket b vs).cnt = b.cnt + vs.length ∧
    (List.foldl updateBucket b vs).sum = b.sum + vs.sum ∧
    (List.foldl updateBucket b vs).max = vs.foldl max b.max ∧
    (List.foldl updateBucket b vs).min = vs.foldl min b.min ∧
    (List.foldl updateBucket b vs).start = b.start
  | [], b, _ => by simp
  | v :: vs, b, hb => by
    have hne : ¬ b.cnt = 0 := by omega
    have hupd : updateBucket b v
        = { b with cnt := b.cnt + 1, sum := b.sum + v,
                   max := max b.max v, min := min b.min v } := by
      unfold updateBucket
      rw [if_neg hne, maxC_eq, minC_eq]
    have hind := fold_upd_pos vs (updateBucket b v) (by rw [hupd]; simp)
    rw [hupd] at hind
    simp only [List.foldl_cons, hupd]
    refine ⟨?_, ?_, ?_, ?_, ?_⟩
    · rw [hind.1]; simp; omega
    · rw [hind.2.1]; rw [List.sum_cons]; ring
    · rw [hind.2.2.1]
    · rw [hind.2.2.2.1]
    · rw [hind.2.2.2.2]

/-- A left fold of `max` either stays at the seed or lands in the list. -/
theorem foldl_max_mem : ∀ (vs : List Rat) (a : Rat),
    vs.foldl max a = a ∨ vs.foldl max a ∈ vs
  | [], a => Or.inl rfl
  | v :: vs, a => by
    rcases foldl_max_mem vs (max a v) with h | h
    · rcases max_choice a v with hc | hc
      · rw [List.foldl_cons, h, hc]; exact Or.inl rfl
      · rw [List.foldl_cons, h, hc]; exact Or.inr (List.mem_cons_self v vs)
    · exact Or.inr (List.mem_cons_of_mem v h)

/-- A left fold of `max` bounds the seed and every list element. -/
theorem le_foldl_max : ∀ (vs : List Rat) (a : Rat),
    a ≤ vs.foldl max a ∧ ∀ v ∈ vs, v ≤ vs.foldl max a
  | [], a => by simp
  | v :: vs, a => by
    have hind := le_foldl_max vs (max a v)
    refine ⟨le_trans (le_max_left a v) hind.1, ?_⟩
    intro x hx
    rcases List.mem_cons.mp hx with hx | hx
    · rw [hx, List.foldl_cons]
      exact le_trans (le_max_right a v) hind.1
    · exact hind.2 x hx

/-- A left fold of `min` either stays at the seed or lands in the list. -/
theorem foldl_min_mem : ∀ (vs : List Rat) (a : Rat),
    vs.foldl min a = a ∨ vs.foldl min a ∈ vs
  | [], a => Or.inl rfl
  | v :: vs, a => by
    rcases foldl_min_mem vs (min a v) with h | h
    · rcases min_choice a v with hc | hc
      · rw [List.foldl_cons, h, hc]; exact Or.inl rfl
      · rw [List.foldl_cons, h, hc]; exact Or.inr (List.mem_cons_self v vs)
    · exact Or.inr (List.mem_cons_of_mem v h)

/-- A left fold of `min` is below the seed and every list element. -/
theorem foldl_min_le : ∀ (vs : List Rat) (a : Rat),
    vs.foldl min a ≤ a ∧ ∀ v ∈ vs, vs.foldl min a ≤ v
  | [], a => by simp
  | v :: vs, a => by
    have hind := foldl_min_le vs (min a v)
    refine ⟨le_trans hind.1 (min_le_left a v), ?_⟩
    intro x hx
    rcases List.mem_cons.mp hx with hx | hx
    · rw [hx, List.foldl_cons]
      exact le_trans hind.1 (min_le_right a v)
    · exact hind.2 x hx

/-- Folding the update of `aggregator_putmetric` over an empty bucket:
the first sample seeds all fields, the rest accumulate. -/
theorem fold_upd_stats (v : Rat) (vs : List Rat) (b : Bucket) (hb : b.cnt = 0) :
    (List.foldl updateBucket b (v :: vs)).cnt = vs.length + 1 ∧
    (List.foldl updateBucket b (v :: vs)).sum = v + vs.sum ∧
    (List.foldl updateBucket b (v :: vs)).max = vs.foldl max v ∧
    (List.foldl updateBucket b (v :: vs)).min = vs.foldl min v ∧
    (List.foldl updateBucket b (v :: vs)).start = b.start := by
  have hupd : updateBucket b v = { b with cnt := 1, sum := v, max := v, min := v } := by
    unfold updateBucket
    rw [if_pos hb]
  have hind := fold_upd_pos vs (updateBucket b v) (by rw [hupd]; simp)
  rw [hupd] at hind
  simp only [List.foldl_cons, hupd]
  refine ⟨?_, ?_, ?_, ?_, ?_⟩
  · rw [hind.1]; simp; omega
  · rw [hind.2.1]
  · rw [hind.2.2.1]
  · rw [hind.2.2.2.1]
  · rw [hind.2.2.2.2]

/-- Quotients below `2^31` survive the `int` truncation unchanged. -/
theorem wrap32_of_lt (n : Nat) (h : n < 2 ^ 31) : wrap32 (n : Int) = n := by
  unfold wrap32
  omega

/-- A sample whose offset is non-negative and whose (in-range)
quotient is `k` is admitted into bucket `k`: `received` is bumped and
`buckets[k]` is updated. -/
theorem putSample_slot (s : Aggregator) (v : Rat) (e : Int) (k : Nat)
    (hlen : s.buckets.length = s.bucketcnt)
    (hk : k < s.bucketcnt) (hcnt : s.bucketcnt ≤ 2 ^ 31)
    (hoff : 0 ≤ e - (nthB s.buckets 0).start)
    (hq : (e - (nthB s.buckets 0).start).toNat / s.interval = k) :
    putSample s v e = some { s with
        received := s.received + 1,
        buckets := s.buckets.set k (updateBucket (nthB s.buckets k) v) } := by
  have hk31 : k < 2 ^ 31 := lt_of_lt_of_le hk hcnt
  have hw : wrap32 (((e - (nthB s.buckets 0).start).toNat / s.interval : Nat) : Int)
      = (k : Int) := by
    rw [hq]; exact wrap32_of_lt k hk31
  have h1 : ¬ (e - (nthB s.buckets 0).start < 0) := not_lt.mpr hoff
  have h2 : ¬ ((s.bucketcnt : Int)
      ≤ wrap32 (((e - (nthB s.buckets 0).start).toNat / s.interval : Nat) : Int)) := by
    rw [hw]
    omega
  have h3 : 0 ≤ wrap32 (((e - (nthB s.buckets 0).start).toNat / s.interval : Nat) : Int) ∧
      (wrap32 (((e - (nthB s.buckets 0).start).toNat / s.interval : Nat) : Int)).toNat
        < s.buckets.length := by
    rw [hw]
    constructor
    · exact Int.natCast_nonneg k
    · rw [Int.toNat_natCast, hlen]
      exact hk
  simp only [putSample, if_neg h1, if_neg h2, if_pos h3]
  rw [hw, Int.toNat_natCast]

/-- Running a batch of samples that all classify into bucket `k`
updates exactly that bucket by the fold of the per-sample update, and
bumps `received` once per sample. -/
theorem runPuts_char (k : Nat) : ∀ (l : List (Rat × Int)) (s : Aggregator),
    s.buckets.length = s.bucketcnt → k < s.bucketcnt → s.bucketcnt ≤ 2 ^ 31 →
    (∀ p ∈ l, 0 ≤ p.2 - (nthB s.buckets 0).start ∧
        (p.2 - (nthB s.buckets 0).start).toNat / s.interval = k) →
    runPuts s l = some { s with
        received := s.received + l.length,
        buckets := s.buckets.set k
          (List.foldl (fun b p => updateBucket b p.1) (nthB s.buckets k) l) }
  | [], s, hlen, hk, _, _ => by
    show some s = _
    simp only [List.foldl_nil, List.length_nil, Nat.add_zero]
    rw [set_nthB_self s.buckets k (by rw [hlen]; exact hk)]
  | p :: l, s, hlen, hk, hcnt, hall => by
    have hp := hall p (List.mem_cons_self p l)
    have hstep := putSample_slot s p.1 p.2 k hlen hk hcnt hp.1 hp.2
    show (putSample s p.1 p.2).bind _ = _
    rw [hstep]
    show runPuts _ l = _
    have hklen : k < s.buckets.length := by rw [hlen]; exact hk
    have hlen1 : (s.buckets.set k (updateBucket (nthB s.buckets k) p.1)).length
        = s.bucketcnt := by rw [List.length_set]; exact hlen
    have hall1 : ∀ q ∈ l,
        0 ≤ q.2 - (nthB (s.buckets.set k (updateBucket (nthB s.buckets k) p.1)) 0).start ∧
        (q.2 - (nthB (s.buckets.set k
            (updateBucket (nthB s.buckets k) p.1)) 0).start).toNat / s.interval = k := by
      intro q hq
      rw [nthB_set_start]
      exact hall q (List.mem_cons_of_mem p hq)
    have hind := runPuts_char k l
      { s with received := s.received + 1,
               buckets := s.buckets.set k (updateBucket (nthB s.buckets k) p.1) }
      hlen1 hk hcnt hall1
    rw [hind]
    dsimp only
    rw [nthB_set_self s.buckets k _ hklen, List.set_set]
    simp only [List.foldl_cons, List.length_cons]
    congr 2
    omega

/-- C2: for every non-empty batch of samples admitted into the same
bucket `k` of an aggregator (all offsets non-negative with quotient
`k`, bucket initially empty), the bucket's count equals the number of
admitted samples, its sum the arithmetic sum of their values, its
max/min the true maximum/minimum (a value of the batch bounding all
others), `received` grows by the batch size, and the emitted
SUM/COUNT/MAX/MIN/AVG values report exactly those fields with
AVG = sum/count. -/
theorem c2_bucket_statistics (s : Aggregator) (k : Nat) (l : List (Rat × Int))
    (hlen : s.buckets.length = s.bucketcnt)
    (hk : k < s.bucketcnt) (hcnt : s.bucketcnt ≤ 2 ^ 31)
    (hb : (nthB s.buckets k).cnt = 0)
    (hne : l ≠ [])
    (hall : ∀ p ∈ l, 0 ≤ p.2 - (nthB s.buckets 0).start ∧
        (p.2 - (nthB s.buckets 0).start).toNat / s.interval = k) :
    ∃ s', runPuts s l = some s' ∧
      s'.received = s.received + l.length ∧
      (nthB s'.buckets k).cnt = l.length ∧
      (nthB s'.buckets k).sum = (l.map Prod.fst).sum ∧
      (nthB s'.buckets k).max ∈ l.map Prod.fst ∧
      (∀ v ∈ l.map Prod.fst, v ≤ (nthB s'.buckets k).max) ∧
      (nthB s'.buckets k).min ∈ l.map Prod.fst ∧
      (∀ v ∈ l.map Prod.fst, (nthB s'.buckets k).min ≤ v) ∧
      computeValue .SUM (nthB s'.buckets k) = (l.map Prod.fst).sum ∧
      computeValue .CNT (nthB s'.buckets k) = (l.length : Rat) ∧
      computeValue .MAX (nthB s'.buckets k) = (nthB s'.buckets k).max ∧
      computeValue .MIN (nthB s'.buckets k) = (nthB s'.buckets k).min ∧
      computeValue .AVG (nthB s'.buckets k)
        = (l.map Prod.fst).sum / (l.length : Rat) := by
  rcases l with _ | ⟨p, l'⟩
  · exact absurd rfl hne
  have hchar := runPuts_char k (p :: l') s hlen hk hcnt hall
  refine ⟨_, hchar, ?_⟩
  dsimp only
  rw [nthB_set_self s.buckets k _ (by rw [hlen]; exact hk)]
  have hF : List.foldl (fun (b : Bucket) (q : Rat × Int) => updateBucket b q.1)
      (nthB s.buckets k) (p :: l')
      = List.foldl updateBucket (nthB s.buckets k) ((p :: l').map Prod.fst) := by
    rw [List.foldl_map]
  rw [hF]
  simp only [List.map_cons]
  have hstats := fold_upd_stats p.1 (l'.map Prod.fst) (nthB s.buckets k) hb
  have hmaxmem := foldl_max_mem (l'.map Prod.fst) p.1
  have hmaxle := le_foldl_max (l'.map Prod.fst) p.1
  have hminmem := foldl_min_mem (l'.map Prod.fst) p.1
  have hminle := foldl_min_le (l'.map Prod.fst) p.1
  have hcntF : (List.foldl updateBucket (nthB s.buckets k) (p.1 :: l'.map Prod.fst)).cnt
      = (p :: l').length := by
    rw [hstats.1]; simp
  have hsumF : (List.foldl updateBucket (nthB s.buckets k) (p.1 :: l'.map Prod.fst)).sum
      = (p.1 :: l'.map Prod.fst).sum := by
    rw [hstats.2.1, List.sum_cons]
  have hmaxF := hstats.2.2.1
  have hminF := hstats.2.2.2.1
  refine ⟨trivial, hcntF, hsumF, ?_, ?_, ?_, ?_, hsumF, ?_, rfl, rfl, ?_⟩
  · rw [hmaxF]
    rcases hmaxmem with h | h
    · rw [h]; exact List.mem_cons_self p.1 _
    · exact List.mem_cons_of_mem p.1 h
  · rw [hmaxF]
    intro v hv
    rcases List.mem_cons.mp hv with hv | hv
    · rw [hv]; exact hmaxle.1
    · exact hmaxle.2 v hv
  · rw [hminF]
    rcases hminmem with h | h
    · rw [h]; exact List.mem_cons_self p.1 _
    · exact List.mem_cons_of_mem p.1 h
  · rw [hminF]
    intro v hv
    rcases List.mem_cons.mp hv with hv | hv
    · rw [hv]; exact hminle.1
    · exact hminle.2 v hv
  · show ((List.foldl updateBucket (nthB s.buckets k) (p.1 :: l'.map Prod.fst)).cnt : Rat)
      = ((p :: l').length : Rat)
    rw [hcntF]
  · show (List.foldl updateBucket (nthB s.buckets k) (p.1 :: l'.map Prod.fst)).sum
        / ((List.foldl updateBucket (nthB s.buckets k) (p.1 :: l'.map Prod.fst)).cnt : Rat)
      = (p.1 :: l'.map Prod.fst).sum / ((p :: l').length : Rat)
    rw [hcntF, hsumF]

/-- Witness for C2: the batch `c2L` against bucket 1 of `swAgg`. -/
theorem c2_bucket_statistics_witness :
    ∃ s', runPuts swAgg c2L = some s' ∧
      s'.received = swAgg.received + c2L.length ∧
      (nthB s'.buckets 1).cnt = c2L.length ∧
      (nthB s'.buckets 1).sum = (c2L.map Prod.fst).sum ∧
      (nthB s'.buckets 1).max ∈ c2L.map Prod.fst ∧
      (∀ v ∈ c2L.map Prod.fst, v ≤ (nthB s'.buckets 1).max) ∧
      (nthB s'.buckets 1).min ∈ c2L.map Prod.fst ∧
      (∀ v ∈ c2L.map Prod.fst, (nthB s'.buckets 1).min ≤ v) ∧
      computeValue .SUM (nthB s'.buckets 1) = (c2L.map Prod.fst).sum ∧
      computeValue .CNT (nthB s'.buckets 1) = (c2L.length : Rat) ∧
      computeValue .MAX (nthB s'.buckets 1) = (nthB s'.buckets 1).max ∧
      computeValue .MIN (nthB s'.buckets 1) = (nthB s'.buckets 1).min ∧
      computeValue .AVG (nthB s'.buckets 1)
        = (c2L.map Prod.fst).sum / (c2L.length : Rat) :=
  c2_bucket_statistics swAgg 1 c2L (by decide) (by decide) (by decide) (by decide)
    (by decide) (by decide)
